import Mathlib

/- Shallow embedding of the PDF-TOOL document transformation engine
   (src/services/pdfService.ts): the page-range parser and the five
   transformation operations (merge, split, compress, images-to-pdf,
   pdf-to-images).  JavaScript numbers are modelled as exact rationals
   plus distinguished NaN and signed-infinity values; float64 rounding is
   not modelled.  A JavaScript for-loop that never terminates (an infinite
   endpoint) is modelled by Option.none. -/

namespace PdfTool

/-- qofNat injects a natural number into ℚ by a kernel-computable route. -/
def qofNat (n : ℕ) : ℚ := Rat.divInt (Int.ofNat n) 1

/-- qadd is rational addition, computed on numerators and denominators so
that the kernel can evaluate it. -/
def qadd (a b : ℚ) : ℚ := Rat.divInt (a.num * b.den + b.num * a.den) (a.den * b.den)

/-- qsub is rational subtraction, kernel-computable. -/
def qsub (a b : ℚ) : ℚ := Rat.divInt (a.num * b.den - b.num * a.den) (a.den * b.den)

/-- qmul is rational multiplication, kernel-computable. -/
def qmul (a b : ℚ) : ℚ := Rat.divInt (a.num * b.num) (a.den * b.den)

/-- qdiv is rational division, kernel-computable; division by zero gives
zero, as for the field operation on ℚ. -/
def qdiv (a b : ℚ) : ℚ := Rat.divInt (a.num * b.den) (a.den * b.num)

/-- qneg is rational negation, kernel-computable. -/
def qneg (a : ℚ) : ℚ := Rat.divInt (-a.num) a.den

/-- qpow10 is 10 ^ k in ℚ, kernel-computable. -/
def qpow10 (k : ℕ) : ℚ := qofNat (10 ^ k)

/-- qpow10z is 10 ^ e in ℚ for an integer exponent, kernel-computable. -/
def qpow10z : ℤ → ℚ
  | .ofNat k => qofNat (10 ^ k)
  | .negSucc k => Rat.divInt 1 (Int.ofNat (10 ^ (k + 1)))

/-- JSNum models a JavaScript number: NaN, positive or negative Infinity,
or a finite value taken as an exact rational. -/
inductive JSNum : Type
  | nan
  | inf
  | ninf
  | fin (q : ℚ)
deriving DecidableEq

/-- isNaN on the JSNum model. -/
def JSNum.isNaN : JSNum → Bool
  | .nan => true
  | _ => false

/-- Character codes treated as whitespace by the ECMAScript trim and
string-to-number conversions. -/
def jsWhitespaceCodes : List ℕ :=
  [9, 10, 11, 12, 13, 32, 160, 5760, 8192, 8193, 8194, 8195, 8196, 8197,
   8198, 8199, 8200, 8201, 8202, 8232, 8233, 8239, 8287, 12288, 65279]

/-- Whitespace test on a single character, by code point. -/
def isJsWhitespace (c : Char) : Bool := decide (c.toNat ∈ jsWhitespaceCodes)

/-- jsTrim models String.prototype.trim: drop whitespace from both ends. -/
def jsTrim (l : List Char) : List Char :=
  ((l.dropWhile isJsWhitespace).reverse.dropWhile isJsWhitespace).reverse

/-- splitChar models String.prototype.split with a one-character
separator: "a,,b".split(",") gives ["a","","b"]; the result is always
nonempty, so prepending to its head loses nothing. -/
def splitChar (sep : Char) : List Char → List (List Char)
  | [] => [[]]
  | c :: rest =>
    if c = sep then [] :: splitChar sep rest
    else (c :: (splitChar sep rest).headD []) :: (splitChar sep rest).tail

/-- Decimal digit test (codes 48-57). -/
def isDecDigit (c : Char) : Bool := decide (48 ≤ c.toNat ∧ c.toNat ≤ 57)

/-- Value of a string of decimal digits. -/
def digitsToNat (l : List Char) : ℕ := l.foldl (fun a c => 10 * a + (c.toNat - 48)) 0

/-- Value of one hexadecimal digit; 16 for anything else. -/
def hexVal (c : Char) : ℕ :=
  if 48 ≤ c.toNat ∧ c.toNat ≤ 57 then c.toNat - 48
  else if 97 ≤ c.toNat ∧ c.toNat ≤ 102 then c.toNat - 87
  else if 65 ≤ c.toNat ∧ c.toNat ≤ 70 then c.toNat - 55
  else 16

/-- Value of a digit string in a radix (2, 8 or 16). -/
def radixToNat (base : ℕ) (l : List Char) : ℕ :=
  l.foldl (fun a c => base * a + hexVal c) 0

/-- parseRadix models the 0x / 0o / 0b branches of the ECMAScript
string-to-number conversion: the digits after the prefix, all valid for
the base and nonempty, else NaN. -/
def parseRadix (base : ℕ) (ds : List Char) : JSNum :=
  if ds ≠ [] ∧ ds.all (fun c => decide (hexVal c < base)) then
    .fin (qofNat (radixToNat base ds))
  else .nan

/-- parseExpDigits reads the digits of an exponent part. -/
def parseExpDigits (neg : Bool) (ds : List Char) : Option ℤ :=
  if ds ≠ [] ∧ ds.all isDecDigit then
    some (if neg then -(digitsToNat ds : ℤ) else (digitsToNat ds : ℤ))
  else none

/-- parseExp reads an optional ECMAScript ExponentPart that must consume
the whole rest of the string. -/
def parseExp : List Char → Option ℤ
  | [] => some 0
  | c :: rest =>
    if c = 'e' ∨ c = 'E' then
      if rest.headD ' ' = '+' then parseExpDigits false rest.tail
      else if rest.headD ' ' = '-' then parseExpDigits true rest.tail
      else parseExpDigits false rest
    else none

/-- Exact value of integer digits, fraction digits and exponent. -/
def decValue (ip fp : List Char) (e : ℤ) : ℚ :=
  qmul (qadd (qofNat (digitsToNat ip)) (qdiv (qofNat (digitsToNat fp)) (qpow10 fp.length)))
    (qpow10z e)

/-- parseUnsignedDec reads an unsigned ECMAScript StrUnsignedDecimalLiteral
(without Infinity), requiring the whole string to be consumed. -/
def parseUnsignedDec (l : List Char) : Option ℚ :=
  let ip := l.takeWhile isDecDigit
  let r1 := l.dropWhile isDecDigit
  if r1.headD ' ' = '.' then
    let fp := r1.tail.takeWhile isDecDigit
    let r3 := r1.tail.dropWhile isDecDigit
    if ip = [] ∧ fp = [] then none
    else (parseExp r3).map (decValue ip fp)
  else if ip = [] then none
  else (parseExp r1).map (decValue ip [])

/-- Characters of the literal "Infinity". -/
def infinityChars : List Char := ['I', 'n', 'f', 'i', 'n', 'i', 't', 'y']

/-- decMag reads the part of a decimal literal after an optional sign. -/
def decMag (neg : Bool) (l : List Char) : JSNum :=
  if l = infinityChars then (if neg then .ninf else .inf)
  else (parseUnsignedDec l).elim .nan (fun q => .fin (if neg then qneg q else q))

/-- decSigned reads a signed decimal literal. -/
def decSigned (l : List Char) : JSNum :=
  match l with
  | [] => decMag false []
  | c :: r =>
    if c = '+' then decMag false r
    else if c = '-' then decMag true r
    else decMag false (c :: r)

/-- jsNumberT converts an already-trimmed string: empty gives 0, then a
radix-prefixed integer or a signed decimal literal, NaN on anything
else. -/
def jsNumberT : List Char → JSNum
  | [] => .fin 0
  | a :: rest =>
    if a = '0' ∧ rest ≠ [] then
      if rest.headD ' ' = 'x' ∨ rest.headD ' ' = 'X' then parseRadix 16 rest.tail
      else if rest.headD ' ' = 'o' ∨ rest.headD ' ' = 'O' then parseRadix 8 rest.tail
      else if rest.headD ' ' = 'b' ∨ rest.headD ' ' = 'B' then parseRadix 2 rest.tail
      else decSigned (a :: rest)
    else decSigned (a :: rest)

/-- jsNumber models the JavaScript Number(string) conversion (exact
arithmetic): trim the input, then read it as a numeric literal. -/
def jsNumber (l : List Char) : JSNum := jsNumberT (jsTrim l)

/-- rangeIterCount is the number of iterations of the loop
for (let i = a; i <= b; i++) when a ≤ b are finite: the floor of b - a,
plus one; b - a is nonnegative here so integer division computes it. -/
def rangeIterCount (a b : ℚ) : ℕ := (((qsub b a).num / ((qsub b a).den : ℤ)) + 1).toNat

/-- rangeIter lists the values taken by the counter of the JavaScript loop
for (let i = start; i <= end; i++); none models a run that never
terminates (an infinite endpoint on a satisfiable bound). -/
def rangeIter : JSNum → JSNum → Option (List ℚ)
  | .fin a, .fin b =>
    some
      (if a ≤ b then (List.range (rangeIterCount a b)).map (fun k => qadd a (qofNat k))
       else [])
  | _, .inf => none
  | .ninf, _ => none
  | _, _ => some []

/-- rangeContrib models the body of the range branch of the parser loop:
with start and end the two converted endpoint numbers, nothing when either
is NaN, otherwise the loop values clipped to the page range, shifted to
0-based; none models a nonterminating loop. -/
def rangeContrib (n : ℕ) (a b : JSNum) : Option (List ℚ) :=
  if a.isNaN ∨ b.isNaN then some []
  else
    (rangeIter a b).map (fun l =>
      (l.filter (fun i => decide (0 < i ∧ i ≤ qofNat n))).map (fun i => qsub i 1))

/-- singleContrib models the body of the single-token branch of the parser
loop: the 0-based value when the converted token is a finite number within
1..totalPages, nothing otherwise (NaN and the infinities fail the test). -/
def singleContrib (n : ℕ) (v : JSNum) : List ℚ :=
  match v with
  | .fin q => if 0 < q ∧ q ≤ qofNat n then [qsub q 1] else []
  | _ => []

/-- contribOfPart models one iteration of the for-loop of parsePageRanges
(src/services/pdfService.ts, lines 22-37): the 0-based values that
iteration adds to the selection set, in order; none models divergence.
A token containing a dash always splits into at least two pieces, so the
length guard is never false; it mirrors the destructuring of the first
two pieces. -/
def contribOfPart (n : ℕ) (part : List Char) : Option (List ℚ) :=
  let trimmed := jsTrim part
  if '-' ∈ trimmed then
    let ps := splitChar '-' trimmed
    if 2 ≤ ps.length then
      rangeContrib n (jsNumber (ps.headD [])) (jsNumber (ps.tail.headD []))
    else some []
  else some (singleContrib n (jsNumber trimmed))

/-- setInsert models Set.prototype.add: insert a value if absent. -/
def setInsert (x : ℚ) (s : List ℚ) : List ℚ := if x ∈ s then s else x :: s

/-- addAll adds every element of a contribution to the set, in order. -/
def addAll (s : List ℚ) (xs : List ℚ) : List ℚ := xs.foldl (fun a x => setInsert x a) s

/-- collectParts folds the parser loop over the comma-separated parts. -/
def collectParts (n : ℕ) : List (List Char) → List ℚ → Option (List ℚ)
  | [], acc => some acc
  | p :: rest, acc =>
    (contribOfPart n p).bind (fun xs => collectParts n rest (addAll acc xs))

/-- parsePageRanges is the shallow embedding of parsePageRanges
(src/services/pdfService.ts, lines 13-39): empty or whitespace-only input
selects all pages; otherwise the comma-separated parts are processed into
a set that is returned sorted ascending.  none models a run that never
terminates. -/
def parsePageRanges (rangeStr : String) (totalPages : ℕ) : Option (List ℚ) :=
  if jsTrim rangeStr.data = [] then
    some ((List.range totalPages).map qofNat)
  else
    (collectParts totalPages (splitChar ',' rangeStr.data) []).map
      (fun s => List.insertionSort (· ≤ ·) s)

variable {α β γ : Type}

/-- pad3 models String.prototype.padStart(3, "0"). -/
def pad3 (s : String) : String :=
  if s.length < 3 then String.mk (List.replicate (3 - s.length) '0') ++ s else s

/-- SplitResult is the outcome of the split operation on an opened
document: the no-valid-pages failure, a fault inside the page copier, or
an archive of named single-page documents. -/
inductive SplitResult (α : Type) : Type
  | noPages
  | copyFault
  | archive (entries : List (String × List α))
deriving DecidableEq

/-- qIsNatIndex holds when a selected value is a genuine 0-based page
index, i.e. a nonnegative integer. -/
def qIsNatIndex (q : ℚ) : Bool := decide (q.den = 1 ∧ 0 ≤ q.num)

/-- splitPDF is the shallow embedding of splitPDF
(src/services/pdfService.ts, lines 92-118) for an already-opened document
given as its page list: parse the range over the page count, raise the
"No valid pages selected" condition when the selection is empty, and
otherwise build one single-page archive entry per selected index, named
page-NNN.pdf with NNN the zero-padded 1-based page number.  copyFault
models the exception the page copier raises when a selected value is not
a valid page index (possible only for non-integer selections); none
models a nonterminating parse. -/
def splitPDF (doc : List α) (rangeStr : String) : Option (SplitResult α) :=
  (parsePageRanges rangeStr doc.length).map (fun idxs =>
    if idxs = [] then .noPages
    else if idxs.all qIsNatIndex then
      .archive (idxs.map (fun q =>
        ("page-" ++ pad3 (Nat.repr (q.num.toNat + 1)) ++ ".pdf",
          (doc[q.num.toNat]?).toList)))
    else .copyFault)

/-- getPageIndices models pdf.getPageIndices(): the list 0..pageCount-1. -/
def getPageIndices (doc : List α) : List ℕ := List.range doc.length

/-- copyPagesModel models PDFDocument.copyPages for an in-range index
list: the pages of the source at the given indices. -/
def copyPagesModel (doc : List α) (idxs : List ℕ) : List α := idxs.filterMap (fun i => doc[i]?)

/-- appendAllPages models the per-file loop body of mergePDFs: copy every
page of the source, in order, and append them to the destination. -/
def appendAllPages (dest src : List α) : List α :=
  dest ++ copyPagesModel src (getPageIndices src)

/-- mergePDFs is the shallow embedding of mergePDFs
(src/services/pdfService.ts, lines 52-63) on opened documents: start from
an empty destination and append every page of every source in order. -/
def mergePDFs (docs : List (List α)) : List α := docs.foldl appendAllPages []

/-- imagesToPDF is the shallow embedding of imagesToPDF
(src/services/pdfService.ts, lines 65-90): each file is a declared media
type with its bytes; embedJpgF and embedPngF model PDFDocument.embedJpg
and embedPng, returning none when the bytes cannot be decoded, which
fails the whole operation; a file of any other declared type is skipped.
The result is the page list of the produced document, one full-page image
per embedded file. -/
def imagesToPDF (embedJpgF embedPngF : β → Option γ) : List (String × β) → Option (List γ)
  | [] => some []
  | (t, b) :: rest =>
    if t = "image/jpeg" ∨ t = "image/jpg" then
      (embedJpgF b).bind (fun img => (imagesToPDF embedJpgF embedPngF rest).map (img :: ·))
    else if t = "image/png" then
      (embedPngF b).bind (fun img => (imagesToPDF embedJpgF embedPngF rest).map (img :: ·))
    else imagesToPDF embedJpgF embedPngF rest

/-- PdfJsPage is a page of a document opened by the rasterizing loader:
its native width and height in points and its content. -/
structure PdfJsPage (γ : Type) : Type where
  width : ℚ
  height : ℚ
  content : γ
deriving DecidableEq

/-- compressPDF is the shallow embedding of compressPDF
(src/services/pdfService.ts, lines 121-163) on an opened document: each
page is rendered at scale 1.5, encoded as a JPEG at the given quality and
re-embedded on a new page sized back down to the original dimensions.
renderEncode models the canvas render / toDataURL / embedJpg pipeline,
always available per the rasterizer contract of the spec; each output
page is its size paired with the embedded image. -/
def compressPDF (renderEncode : PdfJsPage γ → ℚ → ℚ → β) (doc : List (PdfJsPage γ))
    (quality : ℚ) : List ((ℚ × ℚ) × β) :=
  doc.map (fun p =>
    let scale : ℚ := mkRat 3 2
    ((qdiv (qmul p.width scale) scale, qdiv (qmul p.height scale) scale),
      renderEncode p scale quality))

/-- pdfToImagesAux builds the image archive entries from page number i on. -/
def pdfToImagesAux (renderEncode : α → β) (i : ℕ) : List α → List (String × β)
  | [] => []
  | p :: rest =>
    ("page-" ++ pad3 (Nat.repr i) ++ ".jpg", renderEncode p) ::
      pdfToImagesAux renderEncode (i + 1) rest

/-- pdfToImages is the shallow embedding of pdfToImages
(src/services/pdfService.ts, lines 165-201) on an opened document: one
JPEG archive entry per page, named page-NNN.jpg in ascending page order;
the canvas context and blob encoder are always available per the
rasterizer contract of the spec. -/
def pdfToImages (renderEncode : α → β) (doc : List α) : List (String × β) :=
  pdfToImagesAux renderEncode 1 doc

/- Bridge lemmas: the kernel-computable rational operations agree with the
   field operations of ℚ. -/

theorem qofNat_eq (n : ℕ) : qofNat n = (n : ℚ) := by
  simp [qofNat, Rat.divInt_eq_div]

theorem qadd_eq (a b : ℚ) : qadd a b = a + b := by
  rw [qadd, Rat.divInt_eq_div]
  have ha : ((a.den : ℚ)) ≠ 0 := by exact_mod_cast a.den_ne_zero
  have hb : ((b.den : ℚ)) ≠ 0 := by exact_mod_cast b.den_ne_zero
  conv_rhs => rw [← Rat.num_div_den a, ← Rat.num_div_den b]
  push_cast
  field_simp
  try ring

theorem qsub_eq (a b : ℚ) : qsub a b = a - b := by
  rw [qsub, Rat.divInt_eq_div]
  have ha : ((a.den : ℚ)) ≠ 0 := by exact_mod_cast a.den_ne_zero
  have hb : ((b.den : ℚ)) ≠ 0 := by exact_mod_cast b.den_ne_zero
  conv_rhs => rw [← Rat.num_div_den a, ← Rat.num_div_den b]
  push_cast
  field_simp
  try ring

theorem qmul_eq (a b : ℚ) : qmul a b = a * b := by
  rw [qmul, Rat.divInt_eq_div]
  have ha : ((a.den : ℚ)) ≠ 0 := by exact_mod_cast a.den_ne_zero
  have hb : ((b.den : ℚ)) ≠ 0 := by exact_mod_cast b.den_ne_zero
  conv_rhs => rw [← Rat.num_div_den a, ← Rat.num_div_den b]
  push_cast
  field_simp
  try ring

theorem qneg_eq (a : ℚ) : qneg a = -a := by
  rw [qneg, Rat.divInt_eq_div]
  have ha : ((a.den : ℚ)) ≠ 0 := by exact_mod_cast a.den_ne_zero
  conv_rhs => rw [← Rat.num_div_den a]
  push_cast
  field_simp
  try ring

theorem qdiv_eq (a b : ℚ) : qdiv a b = a / b := by
  rcases eq_or_ne b 0 with rfl | hb0
  · simp [qdiv, Rat.divInt_eq_div]
  · rw [qdiv, Rat.divInt_eq_div]
    have ha : ((a.den : ℚ)) ≠ 0 := by exact_mod_cast a.den_ne_zero
    have hb : ((b.den : ℚ)) ≠ 0 := by exact_mod_cast b.den_ne_zero
    have hbn : ((b.num : ℚ)) ≠ 0 := by
      exact_mod_cast Int.cast_ne_zero.mpr (Rat.num_ne_zero.mpr hb0)
    conv_rhs => rw [← Rat.num_div_den a, ← Rat.num_div_den b]
    push_cast
    field_simp
    try ring

theorem qpow10_eq (k : ℕ) : qpow10 k = (10 : ℚ) ^ k := by
  rw [qpow10, qofNat_eq]
  push_cast
  try ring

theorem qpow10z_eq (e : ℤ) : qpow10z e = (10 : ℚ) ^ e := by
  cases e with
  | ofNat k =>
    rw [qpow10z, qofNat_eq, Int.ofNat_eq_coe, zpow_natCast]
    push_cast
    try ring
  | negSucc k =>
    rw [qpow10z, Rat.divInt_eq_div, Int.ofNat_eq_coe, zpow_negSucc]
    push_cast
    rw [one_div]

/- Structural lemmas about the selection set. -/

theorem mem_setInsert {x y : ℚ} {s : List ℚ} : x ∈ setInsert y s ↔ x = y ∨ x ∈ s := by
  by_cases h : y ∈ s
  · simp only [setInsert, if_pos h]
    constructor
    · exact Or.inr
    · rintro (rfl | hx)
      · exact h
      · exact hx
  · simp [setInsert, if_neg h]

theorem nodup_setInsert {y : ℚ} {s : List ℚ} (h : s.Nodup) : (setInsert y s).Nodup := by
  by_cases hy : y ∈ s
  · simpa [setInsert, if_pos hy] using h
  · simpa [setInsert, if_neg hy, h] using hy

theorem mem_addAll {x : ℚ} {s xs : List ℚ} : x ∈ addAll s xs ↔ x ∈ s ∨ x ∈ xs := by
  induction xs generalizing s with
  | nil => simp [addAll]
  | cons y ys ih =>
    have : addAll s (y :: ys) = addAll (setInsert y s) ys := rfl
    rw [this, ih, mem_setInsert]
    simp only [List.mem_cons]
    tauto

theorem nodup_addAll {s xs : List ℚ} (h : s.Nodup) : (addAll s xs).Nodup := by
  induction xs generalizing s with
  | nil => exact h
  | cons y ys ih =>
    have : addAll s (y :: ys) = addAll (setInsert y s) ys := rfl
    rw [this]
    exact ih (nodup_setInsert h)

theorem collectParts_sound {n : ℕ} :
    ∀ (parts : List (List Char)) (acc S : List ℚ), collectParts n parts acc = some S →
      ∀ x ∈ S, x ∈ acc ∨ ∃ p ∈ parts, ∃ xs, contribOfPart n p = some xs ∧ x ∈ xs := by
  intro parts
  induction parts with
  | nil =>
    intro acc S h x hx
    simp only [collectParts, Option.some.injEq] at h
    subst h
    exact Or.inl hx
  | cons p ps ih =>
    intro acc S h x hx
    simp only [collectParts] at h
    cases hc : contribOfPart n p with
    | none => rw [hc] at h; simp at h
    | some xs =>
      rw [hc, Option.some_bind] at h
      rcases ih (addAll acc xs) S h x hx with hm | ⟨p', hp', xs', hxs', hx'⟩
      · rcases mem_addAll.mp hm with ha | hxxs
        · exact Or.inl ha
        · exact Or.inr ⟨p, List.mem_cons_self p ps, xs, hc, hxxs⟩
      · exact Or.inr ⟨p', List.mem_cons_of_mem p hp', xs', hxs', hx'⟩

theorem collectParts_nodup {n : ℕ} :
    ∀ (parts : List (List Char)) (acc S : List ℚ), acc.Nodup →
      collectParts n parts acc = some S → S.Nodup := by
  intro parts
  induction parts with
  | nil =>
    intro acc S hacc h
    simp only [collectParts, Option.some.injEq] at h
    subst h
    exact hacc
  | cons p ps ih =>
    intro acc S hacc h
    simp only [collectParts] at h
    cases hc : contribOfPart n p with
    | none => rw [hc] at h; simp at h
    | some xs =>
      rw [hc, Option.some_bind] at h
      exact ih (addAll acc xs) S (nodup_addAll hacc) h

theorem rangeContrib_bound {n : ℕ} {a b : JSNum} {xs : List ℚ}
    (h : rangeContrib n a b = some xs) : ∀ x ∈ xs, -1 < x ∧ x < (n : ℚ) := by
  intro x hx
  simp only [rangeContrib] at h
  split at h
  · simp only [Option.some.injEq] at h
    subst h
    exact absurd hx (List.not_mem_nil x)
  · cases hr : rangeIter a b with
    | none => rw [hr] at h; simp at h
    | some l =>
      rw [hr] at h
      simp only [Option.map_some', Option.some.injEq] at h
      subst h
      rcases List.mem_map.mp hx with ⟨i, hi, rfl⟩
      rcases List.mem_filter.mp hi with ⟨-, hcond⟩
      have hc := of_decide_eq_true hcond
      rw [qofNat_eq] at hc
      rw [qsub_eq]
      constructor
      · linarith [hc.1]
      · linarith [hc.2]

theorem singleContrib_bound {n : ℕ} {v : JSNum} :
    ∀ x ∈ singleContrib n v, -1 < x ∧ x < (n : ℚ) := by
  intro x hx
  cases v with
  | fin q =>
    by_cases hq : 0 < q ∧ q ≤ qofNat n
    · have he : singleContrib n (.fin q) = [qsub q 1] := by simp [singleContrib, hq]
      rw [he, List.mem_singleton] at hx
      subst hx
      rw [qofNat_eq] at hq
      rw [qsub_eq]
      constructor
      · linarith [hq.1]
      · linarith [hq.2]
    · have he : singleContrib n (.fin q) = [] := by simp [singleContrib, hq]
      rw [he] at hx
      exact absurd hx (List.not_mem_nil x)
  | nan => simp [singleContrib] at hx
  | inf => simp [singleContrib] at hx
  | ninf => simp [singleContrib] at hx

theorem contrib_bound {n : ℕ} {p : List Char} {xs : List ℚ}
    (h : contribOfPart n p = some xs) : ∀ x ∈ xs, -1 < x ∧ x < (n : ℚ) := by
  intro x hx
  simp only [contribOfPart] at h
  split at h
  · split at h
    · exact rangeContrib_bound h x hx
    · simp only [Option.some.injEq] at h
      subst h
      exact absurd hx (List.not_mem_nil x)
  · simp only [Option.some.injEq] at h
    subst h
    exact singleContrib_bound x hx

/-- parse_spec is the central invariant of the parser: a terminating run
returns a strictly ascending, duplicate-free list of values strictly
between -1 and the page count. -/
theorem parse_spec {s : String} {n : ℕ} {L : List ℚ}
    (h : parsePageRanges s n = some L) :
    L.Sorted (· < ·) ∧ ∀ x ∈ L, -1 < x ∧ x < (n : ℚ) := by
  unfold parsePageRanges at h
  split at h
  · simp only [Option.some.injEq] at h
    subst h
    constructor
    · rw [List.map_congr_left (fun i _ => qofNat_eq i)]
      exact List.Pairwise.map _ (fun a b hab => by exact_mod_cast hab)
        (List.sorted_lt_range n)
    · intro x hx
      rcases List.mem_map.mp hx with ⟨i, hi, rfl⟩
      rw [qofNat_eq]
      have : i < n := List.mem_range.mp hi
      constructor
      · have : (0 : ℚ) ≤ i := by positivity
        linarith
      · exact_mod_cast this
  · cases hc : collectParts n (splitChar ',' s.data) [] with
    | none => rw [hc] at h; exact absurd h (by simp)
    | some S =>
      rw [hc] at h
      simp only [Option.map_some', Option.some.injEq] at h
      subst h
      have hperm := List.perm_insertionSort (· ≤ ·) S
      have hSnodup : S.Nodup := collectParts_nodup _ [] S List.nodup_nil hc
      have hnodup : (List.insertionSort (· ≤ ·) S).Nodup := hperm.nodup_iff.mpr hSnodup
      have hsorted : (List.insertionSort (· ≤ ·) S).Sorted (· ≤ ·) :=
        List.sorted_insertionSort (· ≤ ·) S
      refine ⟨hsorted.lt_of_le hnodup, ?_⟩
      intro x hx
      have hxS : x ∈ S := hperm.mem_iff.mp hx
      rcases collectParts_sound _ [] S hc x hxS with hf | ⟨p, -, xs, hxs, hmem⟩
      · cases hf
      · exact contrib_bound hxs x hmem

/- Merge helpers. -/

theorem copyPages_getPageIndices (d : List α) : copyPagesModel d (getPageIndices d) = d := by
  induction d with
  | nil => rfl
  | cons a t ih =>
    simp only [copyPagesModel, getPageIndices] at ih ⊢
    rw [List.length_cons, List.range_succ_eq_map, List.filterMap_cons]
    simp [Function.comp_def, ih]

theorem appendAllPages_eq (dest src : List α) : appendAllPages dest src = dest ++ src := by
  rw [appendAllPages, copyPages_getPageIndices]

theorem mergePDFs_flatten (docs : List (List α)) : mergePDFs docs = docs.flatten := by
  suffices h : ∀ acc : List α, docs.foldl appendAllPages acc = acc ++ docs.flatten by
    simpa [mergePDFs] using h []
  induction docs with
  | nil => intro acc; simp
  | cons d ds ih =>
    intro acc
    rw [List.foldl_cons, appendAllPages_eq, ih, List.flatten_cons, List.append_assoc]

/-- C5: for every ordered list of opened source documents, Merge produces
the document whose page sequence is the concatenation of each source's
full page sequence, in the caller-supplied order. -/
theorem merge_is_concat (docs : List (List α)) : mergePDFs docs = docs.flatten :=
  mergePDFs_flatten docs

/-- C9: Merge is associative over document order: merging two documents
and then appending all pages of a third gives the same page sequence as
merging the three documents directly. -/
theorem merge_assoc (A B C : List α) :
    appendAllPages (mergePDFs [A, B]) C = mergePDFs [A, B, C] := by
  rw [appendAllPages_eq, mergePDFs_flatten, mergePDFs_flatten]
  simp

/-- C6: for every opened document and every quality factor in (0, 1], the
Compress operation returns a document with the same page count. -/
theorem compress_preserves_pageCount (renderEncode : PdfJsPage γ → ℚ → ℚ → β)
    (doc : List (PdfJsPage γ)) (quality : ℚ) (_h0 : 0 < quality) (_h1 : quality ≤ 1) :
    (compressPDF renderEncode doc quality).length = doc.length := by
  simp [compressPDF]

/-- compress_preserves_pageCount applied at a concrete one-page document
and quality 1/2. -/
theorem compress_preserves_pageCount_witness :
    (compressPDF (fun _ _ _ => (0 : ℕ)) [⟨1, 1, (0 : ℕ)⟩] (mkRat 1 2)).length = 1 := by
  have h := compress_preserves_pageCount (fun _ _ _ => (0 : ℕ)) [⟨1, 1, (0 : ℕ)⟩]
    (mkRat 1 2) (by decide) (by decide)
  simpa using h

/- Parser: the select-all default. -/

theorem parse_trim_empty {s : String} {n : ℕ} (h : jsTrim s.data = []) :
    parsePageRanges s n = some (List.map (fun i : ℕ => (i : ℚ)) (List.range n)) := by
  unfold parsePageRanges
  rw [if_pos h]
  congr 1
  exact List.map_congr_left (fun i _ => qofNat_eq i)

/-- C3: for every totalPages, an empty or whitespace-only expression
parses to exactly the ascending list of all indices 0..totalPages-1; for
zero pages this is the empty list. -/
theorem parse_empty_selects_all (s : String) (n : ℕ) (h : jsTrim s.data = []) :
    parsePageRanges s n = some (List.map (fun i : ℕ => (i : ℚ)) (List.range n)) :=
  parse_trim_empty h

/-- parse_empty_selects_all applied at a whitespace expression and three
pages. -/
theorem parse_empty_selects_all_witness : parsePageRanges " " 3 = some [0, 1, 2] := by
  rw [parse_empty_selects_all " " 3 (by decide)]
  norm_num [List.range_succ]

/- Split: the no-valid-pages condition. -/

theorem splitPDF_noPages_iff {doc : List α} {r : String} {sel : List ℚ}
    (hp : parsePageRanges r doc.length = some sel) :
    (splitPDF doc r = some SplitResult.noPages ↔ sel = []) := by
  unfold splitPDF
  rw [hp, Option.map_some']
  constructor
  · intro h
    injection h with h'
    by_contra hne
    rw [if_neg hne] at h'
    split at h' <;> cases h'
  · intro h
    rw [if_pos h]

/-- C1 (amended): Split raises the "No valid pages selected" condition
exactly when the parsed selection is empty, whatever the expression; with
an empty or whitespace-only expression this happens exactly when the
document has zero pages (the select-all default is then empty), and for a
document with at least one page an empty expression never raises. -/
theorem split_noPages_characterization (doc : List α) (r : String) (sel : List ℚ)
    (hp : parsePageRanges r doc.length = some sel) :
    (splitPDF doc r = some SplitResult.noPages ↔ sel = []) ∧
    (jsTrim r.data = [] →
      (splitPDF doc r = some SplitResult.noPages ↔ doc.length = 0)) := by
  refine ⟨splitPDF_noPages_iff hp, fun hr => ?_⟩
  rw [splitPDF_noPages_iff hp]
  have he := parse_trim_empty (s := r) (n := doc.length) hr
  rw [hp] at he
  injection he with he'
  subst he'
  simp

/-- split_noPages_characterization applied at a one-page document with an
out-of-range expression: the selection is empty, so the condition fires. -/
theorem split_noPages_characterization_witness :
    splitPDF [(5 : ℕ)] "7" = some SplitResult.noPages := by
  have h := split_noPages_characterization [(5 : ℕ)] "7" [] (by decide)
  exact h.1.mpr rfl

/-- C1 counterexample: a zero-page document opens successfully (the spec's
round-trip property), yet Split with the empty expression raises the
"No valid pages selected" condition, although the claim says an empty
expression never raises it. -/
theorem split_empty_expression_raises :
    splitPDF ([] : List ℕ) "" = some SplitResult.noPages := by decide

/- Images-to-PDF. -/

/-- C8: Images→PDF never fails because of an unsupported media type: an
input whose declared type is not a supported image type is skipped
silently and contributes no page, and if every input is unsupported the
operation still succeeds with a zero-page document. -/
theorem imagesToPDF_unsupported_skipped (embedJpgF embedPngF : β → Option γ) :
    (∀ (t : String) (b : β) (rest : List (String × β)),
      t ∉ (["image/jpeg", "image/jpg", "image/png"] : List String) →
      imagesToPDF embedJpgF embedPngF ((t, b) :: rest) =
        imagesToPDF embedJpgF embedPngF rest) ∧
    (∀ files : List (String × β),
      (∀ f ∈ files, f.1 ∉ (["image/jpeg", "image/jpg", "image/png"] : List String)) →
      imagesToPDF embedJpgF embedPngF files = some []) := by
  have hskip : ∀ (t : String) (b : β) (rest : List (String × β)),
      t ∉ (["image/jpeg", "image/jpg", "image/png"] : List String) →
      imagesToPDF embedJpgF embedPngF ((t, b) :: rest) =
        imagesToPDF embedJpgF embedPngF rest := by
    intro t b rest ht
    have ht' : ¬(t = "image/jpeg" ∨ t = "image/jpg" ∨ t = "image/png") := by
      simpa using ht
    push_neg at ht'
    simp [imagesToPDF, ht'.1, ht'.2.1, ht'.2.2]
  refine ⟨hskip, ?_⟩
  intro files
  induction files with
  | nil => intro _; rfl
  | cons f rest ih =>
    intro hall
    obtain ⟨t, b⟩ := f
    rw [hskip t b rest (hall (t, b) (List.mem_cons_self _ _))]
    exact ih (fun g hg => hall g (List.mem_cons_of_mem _ hg))

/-- imagesToPDF_unsupported_skipped applied at a single unsupported
input. -/
theorem imagesToPDF_unsupported_skipped_witness :
    imagesToPDF (fun _ => some 0) (fun _ => some 0) [("image/gif", (0 : ℕ))] =
      some ([] : List ℕ) :=
  (imagesToPDF_unsupported_skipped _ _).2 [("image/gif", 0)] (by decide)

/-- C10: the declared type image/jpg is embedded through the JPEG decoder
exactly as image/jpeg; precisely the three declared types image/jpeg,
image/jpg and image/png produce a page, every other type produces none. -/
theorem imagesToPDF_type_dispatch (embedJpgF embedPngF : β → Option γ) :
    (∀ (b : β) (rest : List (String × β)),
      imagesToPDF embedJpgF embedPngF (("image/jpg", b) :: rest) =
        imagesToPDF embedJpgF embedPngF (("image/jpeg", b) :: rest)) ∧
    (∀ (b : β) (img : γ), embedJpgF b = some img →
      imagesToPDF embedJpgF embedPngF [("image/jpeg", b)] = some [img] ∧
      imagesToPDF embedJpgF embedPngF [("image/jpg", b)] = some [img]) ∧
    (∀ (b : β) (img : γ), embedPngF b = some img →
      imagesToPDF embedJpgF embedPngF [("image/png", b)] = some [img]) ∧
    (∀ (t : String) (b : β),
      t ∉ (["image/jpeg", "image/jpg", "image/png"] : List String) →
      imagesToPDF embedJpgF embedPngF [(t, b)] = some []) := by
  refine ⟨?_, ?_, ?_, ?_⟩
  · intro b rest
    simp [imagesToPDF]
  · intro b img h
    constructor <;> simp [imagesToPDF, h]
  · intro b img h
    simp [imagesToPDF, h]
  · intro t b ht
    have ht' : ¬(t = "image/jpeg" ∨ t = "image/jpg" ∨ t = "image/png") := by
      simpa using ht
    push_neg at ht'
    simp [imagesToPDF, ht'.1, ht'.2.1, ht'.2.2]

/-- imagesToPDF_type_dispatch applied at a concrete jpg input. -/
theorem imagesToPDF_type_dispatch_witness :
    imagesToPDF (fun _ => some (7 : ℕ)) (fun _ => some 8) [("image/jpg", (0 : ℕ))] =
      some [7] :=
  ((imagesToPDF_type_dispatch _ _).2.1 0 7 rfl).2

/- Archive naming. -/

theorem splitPDF_archive_charac {doc : List α} {r : String} {sel : List ℚ}
    (hp : parsePageRanges r doc.length = some sel) {entries : List (String × List α)}
    (h : splitPDF doc r = some (SplitResult.archive entries)) :
    sel ≠ [] ∧ sel.all qIsNatIndex = true ∧
      entries = sel.map (fun q =>
        ("page-" ++ pad3 (Nat.repr (q.num.toNat + 1)) ++ ".pdf",
          (doc[q.num.toNat]?).toList)) := by
  unfold splitPDF at h
  rw [hp, Option.map_some'] at h
  injection h with h'
  by_cases h0 : sel = []
  · rw [if_pos h0] at h'; cases h'
  · rw [if_neg h0] at h'
    by_cases h1 : sel.all qIsNatIndex
    · rw [if_pos h1] at h'
      injection h' with h''
      exact ⟨h0, h1, h''.symm⟩
    · rw [if_neg h1] at h'; cases h'

theorem pdfToImagesAux_spec (renderEncode : α → β) :
    ∀ (doc : List α) (i : ℕ),
      (pdfToImagesAux renderEncode i doc).map Prod.fst =
        (List.range doc.length).map (fun k => "page-" ++ pad3 (Nat.repr (i + k)) ++ ".jpg") ∧
      (pdfToImagesAux renderEncode i doc).length = doc.length := by
  intro doc
  induction doc with
  | nil => intro i; simp [pdfToImagesAux]
  | cons p rest ih =>
    intro i
    simp only [pdfToImagesAux, List.map_cons, List.length_cons]
    constructor
    · rw [List.range_succ_eq_map]
      simp only [List.map_cons, List.map_map, Nat.add_zero]
      congr 1
      rw [(ih (i + 1)).1]
      apply List.map_congr_left
      intro k _
      simp only [Function.comp_apply]
      have he : i + 1 + k = i + (k + 1) := by omega
      rw [he]
    · rw [(ih (i + 1)).2]

/-- C7: in Split, the archive has exactly one entry per selected page,
named page-NNN.pdf with NNN the 1-based page number zero-padded to three
digits, in ascending page order; Split of a document with at least one
page and an empty range yields one entry per page, named page-001.pdf
upward; and PDF→Images yields exactly one entry per source page, named
page-NNN.jpg in ascending page order. -/
theorem archive_entry_naming :
    (∀ (doc : List α) (r : String) (sel : List ℚ) (entries : List (String × List α)),
      parsePageRanges r doc.length = some sel →
      splitPDF doc r = some (SplitResult.archive entries) →
      entries.map Prod.fst =
        sel.map (fun q => "page-" ++ pad3 (Nat.repr (q.num.toNat + 1)) ++ ".pdf") ∧
      entries.length = sel.length ∧ sel.Sorted (· < ·)) ∧
    (∀ doc : List α, doc ≠ [] → ∃ entries : List (String × List α),
      splitPDF doc "" = some (SplitResult.archive entries) ∧
      entries.map Prod.fst =
        (List.range doc.length).map (fun i => "page-" ++ pad3 (Nat.repr (i + 1)) ++ ".pdf")) ∧
    (∀ (renderEncode : α → β) (doc : List α),
      (pdfToImages renderEncode doc).map Prod.fst =
        (List.range doc.length).map (fun i => "page-" ++ pad3 (Nat.repr (i + 1)) ++ ".jpg") ∧
      (pdfToImages renderEncode doc).length = doc.length) := by
  refine ⟨?_, ?_, ?_⟩
  · intro doc r sel entries hp h
    obtain ⟨-, -, he⟩ := splitPDF_archive_charac hp h
    subst he
    refine ⟨?_, by simp, (parse_spec hp).1⟩
    rw [List.map_map]
    rfl
  · intro doc hne
    have hp : parsePageRanges "" doc.length =
        some (List.map (fun i : ℕ => (i : ℚ)) (List.range doc.length)) :=
      parse_trim_empty (by decide)
    have hsel : List.map (fun i : ℕ => (i : ℚ)) (List.range doc.length) ≠ [] := by
      simpa using hne
    have hall : (List.map (fun i : ℕ => (i : ℚ)) (List.range doc.length)).all qIsNatIndex := by
      rw [List.all_eq_true]
      intro q hq
      rcases List.mem_map.mp hq with ⟨i, -, rfl⟩
      simp [qIsNatIndex]
    refine ⟨(List.map (fun i : ℕ => (i : ℚ)) (List.range doc.length)).map (fun q =>
        ("page-" ++ pad3 (Nat.repr (q.num.toNat + 1)) ++ ".pdf",
          (doc[q.num.toNat]?).toList)), ?_, ?_⟩
    · unfold splitPDF
      rw [hp, Option.map_some', if_neg hsel, if_pos hall]
    · rw [List.map_map, List.map_map]
      apply List.map_congr_left
      intro i _
      have h1 : ((i : ℚ)).num = (i : ℤ) := Rat.num_natCast i
      have h2 : ((i : ℚ)).num.toNat = i := by rw [h1]; omega
      simp [Function.comp_apply, h2]
  · intro renderEncode doc
    have h := pdfToImagesAux_spec renderEncode doc 1
    refine ⟨?_, h.2⟩
    rw [pdfToImages, h.1]
    apply List.map_congr_left
    intro k _
    have he : 1 + k = k + 1 := Nat.add_comm 1 k
    rw [he]

/-- archive_entry_naming applied at a concrete two-page document with the
expression "2". -/
theorem archive_entry_naming_witness :
    ([("page-002.pdf", [(20 : ℕ)])].map Prod.fst =
      [(1 : ℚ)].map (fun q => "page-" ++ pad3 (Nat.repr (q.num.toNat + 1)) ++ ".pdf")) ∧
    ([("page-002.pdf", [(20 : ℕ)])].length = [(1 : ℚ)].length) ∧
    ([(1 : ℚ)].Sorted (· < ·)) :=
  (archive_entry_naming (α := ℕ) (β := ℕ)).1 [10, 20] "2" [1] [("page-002.pdf", [20])]
    (by decide) (by decide)

/- Digit strings and the number conversion. -/

theorem not_ws_of_digit {c : Char} (h : isDecDigit c = true) : isJsWhitespace c = false := by
  obtain ⟨h1, h2⟩ := of_decide_eq_true h
  rw [isJsWhitespace, decide_eq_false_iff_not]
  intro hmem
  simp only [jsWhitespaceCodes, List.mem_cons, List.not_mem_nil, or_false] at hmem
  omega

theorem digit_ne_char {c d : Char} (h : isDecDigit c = true)
    (hd : d.toNat < 48 ∨ 57 < d.toNat) : c ≠ d := by
  intro heq
  obtain ⟨h1, h2⟩ := of_decide_eq_true h
  subst heq
  omega

theorem dropWhile_ws_eq_self {l : List Char} (h : ∀ c ∈ l, isJsWhitespace c = false) :
    l.dropWhile isJsWhitespace = l := by
  cases l with
  | nil => rfl
  | cons a t => simp [List.dropWhile_cons, h a (List.mem_cons_self a t)]

theorem jsTrim_eq_self {l : List Char} (h : ∀ c ∈ l, isJsWhitespace c = false) :
    jsTrim l = l := by
  rw [jsTrim, dropWhile_ws_eq_self h,
    dropWhile_ws_eq_self (fun c hc => h c (List.mem_reverse.mp hc)), List.reverse_reverse]

theorem takeWhile_all_digits {l : List Char} (h : l.all isDecDigit = true) :
    l.takeWhile isDecDigit = l ∧ l.dropWhile isDecDigit = [] := by
  induction l with
  | nil => exact ⟨rfl, rfl⟩
  | cons a t ih =>
    rw [List.all_cons, Bool.and_eq_true] at h
    obtain ⟨ha, ht⟩ := h
    constructor
    · simp [List.takeWhile_cons, ha, (ih ht).1]
    · simp [List.dropWhile_cons, ha, (ih ht).2]

theorem decValue_int (ip : List Char) : decValue ip [] 0 = qofNat (digitsToNat ip) := by
  rw [decValue]
  have h0 : digitsToNat [] = 0 := rfl
  rw [h0, qmul_eq, qadd_eq, qdiv_eq, qpow10_eq, qpow10z_eq, qofNat_eq, qofNat_eq]
  norm_num

theorem parseUnsignedDec_digits {l : List Char} (hne : l ≠ []) (hall : l.all isDecDigit = true) :
    parseUnsignedDec l = some (qofNat (digitsToNat l)) := by
  obtain ⟨htake, hdrop⟩ := takeWhile_all_digits hall
  simp only [parseUnsignedDec, htake, hdrop]
  rw [if_neg (by decide), if_neg hne]
  simp only [parseExp, Option.map_some']
  rw [decValue_int]

theorem decMag_digits {l : List Char} (hne : l ≠ []) (hall : l.all isDecDigit = true) :
    decMag false l = .fin (qofNat (digitsToNat l)) := by
  have hInf : l ≠ infinityChars := by
    intro heq
    cases l with
    | nil => exact hne rfl
    | cons a t =>
      have ha : isDecDigit a = true := by
        rw [List.all_cons, Bool.and_eq_true] at hall
        exact hall.1
      have haI : a = 'I' := by
        have := congrArg (fun x => x.headD ' ') heq
        simpa [infinityChars] using this
      exact digit_ne_char ha (by decide) haI
  rw [decMag, if_neg hInf, parseUnsignedDec_digits hne hall]
  simp

theorem decSigned_digits {l : List Char} (hne : l ≠ []) (hall : l.all isDecDigit = true) :
    decSigned l = .fin (qofNat (digitsToNat l)) := by
  cases l with
  | nil => exact absurd rfl hne
  | cons a t =>
    have ha : isDecDigit a = true := by
      rw [List.all_cons, Bool.and_eq_true] at hall
      exact hall.1
    simp only [decSigned]
    rw [if_neg (digit_ne_char ha (by decide)), if_neg (digit_ne_char ha (by decide))]
    exact decMag_digits hne hall

theorem jsNumber_digits {ds : List Char} (hne : ds ≠ []) (hall : ds.all isDecDigit = true) :
    jsNumber ds = .fin (qofNat (digitsToNat ds)) := by
  have hnw : ∀ c ∈ ds, isJsWhitespace c = false := fun c hc =>
    not_ws_of_digit (List.all_eq_true.mp hall c hc)
  rw [jsNumber, jsTrim_eq_self hnw]
  cases ds with
  | nil => exact absurd rfl hne
  | cons a t =>
    simp only [jsNumberT]
    have hsingle : decSigned (a :: t) = .fin (qofNat (digitsToNat (a :: t))) :=
      decSigned_digits hne hall
    by_cases h0 : a = '0' ∧ t ≠ []
    · rw [if_pos h0]
      have hhd : isDecDigit (t.headD ' ') = true := by
        cases t with
        | nil => exact absurd rfl h0.2
        | cons b t2 =>
          rw [List.all_cons, Bool.and_eq_true] at hall
          rw [List.all_cons, Bool.and_eq_true] at hall
          exact hall.2.1
      rw [if_neg, if_neg, if_neg]
      · exact hsingle
      · rintro (hx | hx) <;> exact digit_ne_char hhd (by decide) hx
      · rintro (hx | hx) <;> exact digit_ne_char hhd (by decide) hx
      · rintro (hx | hx) <;> exact digit_ne_char hhd (by decide) hx
    · rw [if_neg h0]
      exact hsingle

/- splitChar on dash-free pieces. -/

theorem splitChar_not_mem {sep : Char} {l : List Char} (h : sep ∉ l) :
    splitChar sep l = [l] := by
  induction l with
  | nil => rfl
  | cons c t ih =>
    have hc : c ≠ sep := fun hcs => h (hcs ▸ List.mem_cons_self c t)
    have ht : sep ∉ t := fun hm => h (List.mem_cons_of_mem c hm)
    simp only [splitChar]
    rw [if_neg hc, ih ht]
    rfl

theorem splitChar_append {sep : Char} {l1 l2 : List Char} (h : sep ∉ l1) :
    splitChar sep (l1 ++ sep :: l2) = l1 :: splitChar sep l2 := by
  induction l1 with
  | nil =>
    simp only [List.nil_append, splitChar]
    simp
  | cons c t ih =>
    have hc : c ≠ sep := fun hcs => h (hcs ▸ List.mem_cons_self c t)
    have ht : sep ∉ t := fun hm => h (List.mem_cons_of_mem c hm)
    simp only [List.cons_append, splitChar, List.append_eq]
    rw [if_neg hc, ih ht]
    rfl

/- The range loop on natural endpoints. -/

theorem rangeIterCount_natCast {A B : ℕ} (h : A ≤ B) :
    rangeIterCount (A : ℚ) (B : ℚ) = B - A + 1 := by
  rw [rangeIterCount, qsub_eq]
  have hc : ((B : ℚ) - (A : ℚ)) = ((B - A : ℕ) : ℚ) := (Nat.cast_sub h).symm
  rw [hc, Rat.num_natCast, Rat.den_natCast]
  simp only [Nat.cast_one, Int.ediv_one]
  omega

theorem rangeIter_natCast (A B : ℕ) :
    rangeIter (.fin (A : ℚ)) (.fin (B : ℚ)) =
      some ((List.range' A (B + 1 - A)).map (fun i : ℕ => (i : ℚ))) := by
  simp only [rangeIter]
  by_cases h : A ≤ B
  · have hle : (A : ℚ) ≤ (B : ℚ) := by exact_mod_cast h
    rw [if_pos hle, rangeIterCount_natCast h]
    have hn : B + 1 - A = B - A + 1 := by omega
    rw [hn, List.range'_eq_map_range, List.map_map]
    congr 1
    apply List.map_congr_left
    intro k _
    simp only [Function.comp_apply]
    rw [qadd_eq, qofNat_eq]
    push_cast
    ring
  · have hlt : ¬((A : ℚ) ≤ (B : ℚ)) := fun hc => h (by exact_mod_cast hc)
    rw [if_neg hlt]
    have hz : B + 1 - A = 0 := by omega
    rw [hz]
    rfl

/- Per-token contributions, stated in the claim's vocabulary. -/

theorem contrib_digit_token (n : ℕ) (ds : List Char) (hne : ds ≠ [])
    (hall : ds.all isDecDigit = true) :
    contribOfPart n ds =
      some (if 1 ≤ digitsToNat ds ∧ digitsToNat ds ≤ n
        then [(digitsToNat ds : ℚ) - 1] else []) := by
  have hnw : ∀ c ∈ ds, isJsWhitespace c = false := fun c hc =>
    not_ws_of_digit (List.all_eq_true.mp hall c hc)
  have hdash : '-' ∉ ds := fun hm =>
    absurd (List.all_eq_true.mp hall '-' hm) (by decide)
  simp only [contribOfPart]
  rw [jsTrim_eq_self hnw, if_neg hdash, jsNumber_digits hne hall]
  simp only [singleContrib]
  congr 1
  rw [qofNat_eq, qofNat_eq, qsub_eq]
  have hiff : (0 < (digitsToNat ds : ℚ) ∧ (digitsToNat ds : ℚ) ≤ (n : ℚ)) ↔
      (1 ≤ digitsToNat ds ∧ digitsToNat ds ≤ n) := by
    constructor
    · rintro ⟨hp, hq⟩
      have hp' : 0 < digitsToNat ds := by exact_mod_cast hp
      exact ⟨by omega, by exact_mod_cast hq⟩
    · rintro ⟨hp, hq⟩
      have hp' : 0 < digitsToNat ds := by omega
      exact ⟨by exact_mod_cast hp', by exact_mod_cast hq⟩
  rw [if_congr hiff rfl rfl]

theorem contrib_range_token (n : ℕ) (ds1 ds2 : List Char) (h1 : ds1 ≠ []) (h2 : ds2 ≠ [])
    (ha1 : ds1.all isDecDigit = true) (ha2 : ds2.all isDecDigit = true) :
    contribOfPart n (ds1 ++ '-' :: ds2) =
      some (((List.range' (digitsToNat ds1) (digitsToNat ds2 + 1 - digitsToNat ds1)).filter
          (fun i => decide (1 ≤ i ∧ i ≤ n))).map (fun i : ℕ => (i : ℚ) - 1)) := by
  have hnw : ∀ c ∈ ds1 ++ '-' :: ds2, isJsWhitespace c = false := by
    intro c hc
    rcases List.mem_append.mp hc with hc1 | hc2
    · exact not_ws_of_digit (List.all_eq_true.mp ha1 c hc1)
    · rcases List.mem_cons.mp hc2 with rfl | hc3
      · decide
      · exact not_ws_of_digit (List.all_eq_true.mp ha2 c hc3)
  have hd1 : '-' ∉ ds1 := fun hm =>
    absurd (List.all_eq_true.mp ha1 '-' hm) (by decide)
  have hd2 : '-' ∉ ds2 := fun hm =>
    absurd (List.all_eq_true.mp ha2 '-' hm) (by decide)
  have hdash : '-' ∈ ds1 ++ '-' :: ds2 := List.mem_append_right ds1 (List.mem_cons_self _ _)
  simp only [contribOfPart]
  rw [jsTrim_eq_self hnw, if_pos hdash, splitChar_append hd1, splitChar_not_mem hd2]
  rw [if_pos (by simp)]
  simp only [List.headD_cons, List.tail_cons]
  rw [jsNumber_digits h1 ha1, jsNumber_digits h2 ha2, qofNat_eq, qofNat_eq]
  rw [rangeContrib, if_neg (by simp [JSNum.isNaN]), rangeIter_natCast]
  simp only [Option.map_some']
  congr 1
  rw [List.filter_map, List.map_map]
  have hfil : ∀ i ∈ List.range' (digitsToNat ds1) (digitsToNat ds2 + 1 - digitsToNat ds1),
      ((fun q : ℚ => decide (0 < q ∧ q ≤ qofNat n)) ∘ (fun i : ℕ => (i : ℚ))) i =
        decide (1 ≤ i ∧ i ≤ n) := by
    intro i _
    simp only [Function.comp_apply]
    apply decide_eq_decide.mpr
    rw [qofNat_eq]
    constructor
    · rintro ⟨hp, hq⟩
      have hp' : 0 < i := by exact_mod_cast hp
      exact ⟨by omega, by exact_mod_cast hq⟩
    · rintro ⟨hp, hq⟩
      have hp' : 0 < i := by omega
      exact ⟨by exact_mod_cast hp', by exact_mod_cast hq⟩
  rw [List.filter_congr hfil]
  apply List.map_congr_left
  intro i _
  simp only [Function.comp_apply]
  rw [qsub_eq]

theorem contrib_nan_token (n : ℕ) (p : List Char) (hd : '-' ∉ jsTrim p)
    (hn : (jsNumber (jsTrim p)).isNaN = true) : contribOfPart n p = some [] := by
  simp only [contribOfPart]
  rw [if_neg hd]
  cases hj : jsNumber (jsTrim p) with
  | nan => rfl
  | inf => rw [hj] at hn; exact absurd hn (by decide)
  | ninf => rw [hj] at hn; exact absurd hn (by decide)
  | fin q => rw [hj] at hn; exact absurd hn (by simp [JSNum.isNaN])

theorem contrib_fin_token (n : ℕ) (p : List Char) (q : ℚ) (hd : '-' ∉ jsTrim p)
    (hq : jsNumber (jsTrim p) = .fin q) :
    contribOfPart n p = some (if 0 < q ∧ q ≤ (n : ℚ) then [q - 1] else []) := by
  simp only [contribOfPart]
  rw [if_neg hd, hq]
  simp only [singleContrib]
  rw [qofNat_eq, qsub_eq]

/-- C2 (amended): per-token contributions of the parser.  A token that is
a nonempty digit string N contributes N-1 when 1 ≤ N ≤ totalPages and
nothing otherwise; a token A-B made of two nonempty digit strings
contributes i-1 for every i from A to B inclusive with 1 ≤ i ≤ totalPages,
a reversed range contributing nothing; a dash-free token whose JavaScript
Number conversion is NaN contributes nothing; but a dash-free token
converting to any finite number p — integer or not — contributes p-1
whenever 0 < p ≤ totalPages, rather than only positive-integer tokens
doing so.  The worked examples of the claim hold. -/
theorem parse_token_contributions :
    (∀ (n : ℕ) (ds : List Char), ds ≠ [] → ds.all isDecDigit = true →
      contribOfPart n ds =
        some (if 1 ≤ digitsToNat ds ∧ digitsToNat ds ≤ n
          then [(digitsToNat ds : ℚ) - 1] else [])) ∧
    (∀ (n : ℕ) (ds1 ds2 : List Char), ds1 ≠ [] → ds2 ≠ [] →
      ds1.all isDecDigit = true → ds2.all isDecDigit = true →
      contribOfPart n (ds1 ++ '-' :: ds2) =
        some (((List.range' (digitsToNat ds1)
            (digitsToNat ds2 + 1 - digitsToNat ds1)).filter
            (fun i => decide (1 ≤ i ∧ i ≤ n))).map (fun i : ℕ => (i : ℚ) - 1))) ∧
    (∀ (n : ℕ) (p : List Char), '-' ∉ jsTrim p → (jsNumber (jsTrim p)).isNaN = true →
      contribOfPart n p = some []) ∧
    (∀ (n : ℕ) (p : List Char) (q : ℚ), '-' ∉ jsTrim p → jsNumber (jsTrim p) = .fin q →
      contribOfPart n p = some (if 0 < q ∧ q ≤ (n : ℚ) then [q - 1] else [])) ∧
    parsePageRanges "1,3-5,8" 6 = some [0, 2, 3, 4] ∧
    parsePageRanges "5-2" 10 = some [] :=
  ⟨contrib_digit_token, contrib_range_token, contrib_nan_token, contrib_fin_token,
    by decide, by decide⟩

/-- parse_token_contributions applied at the range token 3-5 with six
pages. -/
theorem parse_token_contributions_witness :
    contribOfPart 6 (['3'] ++ '-' :: ['5']) =
      some (((List.range' (digitsToNat ['3'])
          (digitsToNat ['5'] + 1 - digitsToNat ['3'])).filter
          (fun i => decide (1 ≤ i ∧ i ≤ 6))).map (fun i : ℕ => (i : ℚ) - 1)) :=
  parse_token_contributions.2.1 6 ['3'] ['5'] (by decide) (by decide) (by decide) (by decide)

/-- C2 counterexample: the single token "2.5" is not a positive-integer
token, so by the claim it should contribute nothing and the parse should
be empty; the code converts it with Number, obtains 2.5, passes the range
test on a five-page document and selects the fractional value 3/2. -/
theorem parse_fractional_token_counterexample :
    parsePageRanges "2.5" 5 = some [mkRat 3 2] ∧ parsePageRanges "2.5" 5 ≠ some [] :=
  ⟨by decide, by decide⟩

/-- C4 (amended): every terminating parse returns a strictly ascending,
duplicate-free list whose elements lie strictly between -1 and totalPages;
the elements need not be integers (a fractional numeric token contributes
a fractional value), so the lower bound is -1 exclusive rather than 0
inclusive. -/
theorem parse_selection_invariant (s : String) (n : ℕ) (L : List ℚ)
    (h : parsePageRanges s n = some L) :
    L.Sorted (· < ·) ∧ L.Nodup ∧ ∀ x ∈ L, -1 < x ∧ x < (n : ℚ) := by
  obtain ⟨h1, h2⟩ := parse_spec h
  exact ⟨h1, h1.nodup, h2⟩

/-- parse_selection_invariant applied at the expression "2" on three
pages. -/
theorem parse_selection_invariant_witness :
    ([(1 : ℚ)].Sorted (· < ·)) ∧ ([(1 : ℚ)].Nodup) ∧
      ∀ x ∈ [(1 : ℚ)], -1 < x ∧ x < ((3 : ℕ) : ℚ) :=
  parse_selection_invariant "2" 3 [1] (by decide)

/-- C4 counterexample: on a one-page document the expression "0.5" parses
to the selection [-1/2], whose element is negative, violating the claimed
bound 0 ≤ idx. -/
theorem parse_selection_negative_counterexample :
    parsePageRanges "0.5" 1 = some [mkRat (-1) 2] ∧ ¬(0 ≤ mkRat (-1) 2) :=
  ⟨by decide, by decide⟩

/- Evaluation checks: the embedding computes the expected values on
   concrete inputs, including the worked examples of the specification. -/

example : jsNumber "2.5".data = .fin (mkRat 5 2) := by decide
example : jsNumber "".data = .fin 0 := by decide
example : jsNumber "0x10".data = .fin 16 := by decide
example : jsNumber "abc".data = .nan := by decide
example : jsNumber "-3".data = .fin (-3) := by decide
example : jsNumber "1e2".data = .fin 100 := by decide
example : jsNumber " 12 ".data = .fin 12 := by decide
example : jsNumber "Infinity".data = .inf := by decide
example : parsePageRanges "" 3 = some [0, 1, 2] := by decide
example : parsePageRanges "1,3-5,8" 6 = some [0, 2, 3, 4] := by decide
example : parsePageRanges "5-2" 10 = some [] := by decide
example : parsePageRanges "2,2,2" 5 = some [1] := by decide
example : parsePageRanges "2.5" 5 = some [mkRat 3 2] := by decide
example : parsePageRanges "0.5" 1 = some [mkRat (-1) 2] := by decide
example : parsePageRanges "-3" 10 = some [0, 1, 2] := by decide
example : parsePageRanges "7" 1 = some [] := by decide
example : splitPDF ([] : List ℕ) "" = some .noPages := by decide
example : splitPDF [10, 20] "" =
    some (.archive [("page-001.pdf", [10]), ("page-002.pdf", [20])]) := by decide
example : splitPDF [10] "0.5" = some .copyFault := by decide
example : mergePDFs [[1, 2], [3]] = [1, 2, 3] := by decide
example : imagesToPDF (fun b => some b) (fun b => some (b + 1)) [("image/gif", 5)] =
    some ([] : List ℕ) := by decide
example : pdfToImages (fun n => n + 100) [7, 8] =
    [("page-001.jpg", 107), ("page-002.jpg", 108)] := by decide

end PdfTool
